import Mathlib

/-!
Shallow embedding of the analysis algorithms in
`src/mozaik/analysis/analysis.py` (module `mozaik.analysis.analysis`),
together with theorems settling the specification claims about them.

Conventions of the embedding:
* Python floats (times, conductance values, rates) are modelled as `ℚ`
  wherever the code only does field arithmetic, so that concrete instances
  evaluate by `decide`; the vector-average estimator, which uses `cos`,
  `sin`, `sqrt` and `arccos`, is modelled over `ℝ`.
* Python `int(x)` (truncation toward zero) is modelled by `pyInt`.
* `numpy` arrays become `List ℚ` / `List ℝ`; elementwise operations become
  `List.map` / `List.zipWith`.
-/

namespace Mozaik

/-- Python `int(x)`: truncation toward zero. -/
def pyInt (q : ℚ) : ℤ := if q < 0 then -⌊-q⌋ else ⌊q⌋

/-! ### GSTA (`GSTA.do_gsta`, analysis.py lines 148-165)

One trial is a `(conductance trace, spike trains)` pair: in the code,
`ans` is a 2-d analog signal (samples × neurons) with `t_start`, `t_stop`,
and `spike` is the list of per-neuron spike trains.  The shared sampling
period `dt` (taken by the code from `analog_signal[0].sampling_period`) and
the `length` parameter are passed explicitly. -/

structure Trial where
  /-- Field `ans` as a list of samples; `vals[t][n]` is sample `t` of neuron `n`. -/
  vals : List (List ℚ)
  tstart : ℚ
  tstop : ℚ
  /-- Field `spike`: per-neuron spike-time lists; `spikes[n]` is neuron `n`. -/
  spikes : List (List ℚ)
deriving DecidableEq

/-- The column `ans[:,n]` of a trace. -/
def col (vals : List (List ℚ)) (n : ℕ) : List ℚ :=
  vals.map (fun r => r.getD n 0)

/-- Expression `int((time - ans.t_start)/dt)`: the sample index of a spike. -/
def spikeIdx (dt : ℚ) (t : Trial) (time : ℚ) : ℤ :=
  pyInt ((time - t.tstart) / dt)

/-- The slice `ans[idx-gstal:idx+gstal+1, n]`. -/
def segment (t : Trial) (n : ℕ) (gstal idx : ℤ) : List ℚ :=
  ((col t.vals n).drop (idx - gstal).toNat).take (2 * gstal + 1).toNat

/-- One iteration of the inner spike loop (lines 154-159): accumulator is
the running `(gsta, count)` pair. -/
def stepSpike (dt : ℚ) (gstal : ℤ) (n : ℕ) (t : Trial)
    (acc : List ℚ × ℕ) (time : ℚ) : List ℚ × ℕ :=
  if t.tstart < time ∧ time < t.tstop then
    let idx := spikeIdx dt t time
    if 0 < idx - gstal ∧ idx + gstal + 1 ≤ (t.vals.length : ℤ) then
      (List.zipWith (· + ·) acc.1 (segment t n gstal idx), acc.2 + 1)
    else acc
  else acc

/-- One iteration of the outer trial loop (line 153). -/
def stepTrial (dt : ℚ) (gstal : ℤ) (n : ℕ)
    (acc : List ℚ × ℕ) (t : Trial) : List ℚ × ℕ :=
  (t.spikes.getD n []).foldl (stepSpike dt gstal n t) acc

/-- Method `GSTA.do_gsta` for neuron `n`: the returned averaged waveform
(the magnitude part of the `AnalogSignal` built at line 165). -/
def do_gsta (length dt : ℚ) (trials : List Trial) (n : ℕ) : List ℚ :=
  let gstal := pyInt (length / dt)
  let r := trials.foldl (stepTrial dt gstal n)
    (List.replicate (2 * gstal + 1).toNat 0, 0)
  let count : ℕ := if r.2 = 0 then 1 else r.2
  r.1.map (· / (count : ℚ))

/-- The contribution of a single spike, as an `Option`: `some s` when the
code's two nested tests pass and the windowed segment `s` is accumulated,
`none` when the spike is silently skipped. -/
def contrib (dt : ℚ) (gstal : ℤ) (n : ℕ) (t : Trial) (time : ℚ) :
    Option (List ℚ) :=
  if t.tstart < time ∧ time < t.tstop then
    let idx := spikeIdx dt t time
    if 0 < idx - gstal ∧ idx + gstal + 1 ≤ (t.vals.length : ℤ) then
      some (segment t n gstal idx)
    else none
  else none

/-- The list of all windowed segments actually accumulated, over all
trials, in loop order. -/
def qualifSegs (dt : ℚ) (gstal : ℤ) (n : ℕ) (trials : List Trial) :
    List (List ℚ) :=
  trials.flatMap
    (fun t => (t.spikes.getD n []).filterMap (contrib dt gstal n t))

lemma stepSpike_eq_contrib (dt : ℚ) (gstal : ℤ) (n : ℕ) (t : Trial)
    (acc : List ℚ × ℕ) (time : ℚ) :
    stepSpike dt gstal n t acc time =
      match contrib dt gstal n t time with
      | some s => (List.zipWith (· + ·) acc.1 s, acc.2 + 1)
      | none => acc := by
  unfold stepSpike contrib
  dsimp only
  by_cases h1 : t.tstart < time ∧ time < t.tstop
  · rw [if_pos h1, if_pos h1]
    by_cases h2 : 0 < spikeIdx dt t time - gstal ∧
        spikeIdx dt t time + gstal + 1 ≤ (t.vals.length : ℤ)
    · rw [if_pos h2, if_pos h2]
    · rw [if_neg h2, if_neg h2]
  · rw [if_neg h1, if_neg h1]

lemma foldl_stepSpike (dt : ℚ) (gstal : ℤ) (n : ℕ) (t : Trial)
    (times : List ℚ) (acc : List ℚ × ℕ) :
    times.foldl (stepSpike dt gstal n t) acc =
      ((times.filterMap (contrib dt gstal n t)).foldl
          (List.zipWith (· + ·)) acc.1,
        acc.2 + (times.filterMap (contrib dt gstal n t)).length) := by
  induction times generalizing acc with
  | nil => simp
  | cons time rest ih =>
    rw [List.foldl_cons, ih, stepSpike_eq_contrib, List.filterMap_cons]
    cases h : contrib dt gstal n t time with
    | none => simp
    | some s =>
      simp only [List.foldl_cons, List.length_cons, Prod.mk.injEq]
      exact ⟨trivial, by omega⟩

lemma foldl_stepTrial (dt : ℚ) (gstal : ℤ) (n : ℕ) (trials : List Trial)
    (acc : List ℚ × ℕ) :
    trials.foldl (stepTrial dt gstal n) acc =
      ((qualifSegs dt gstal n trials).foldl (List.zipWith (· + ·)) acc.1,
        acc.2 + (qualifSegs dt gstal n trials).length) := by
  induction trials generalizing acc with
  | nil => simp [qualifSegs]
  | cons t rest ih =>
    rw [List.foldl_cons, stepTrial, foldl_stepSpike, ih]
    simp only [qualifSegs, List.flatMap_cons, List.foldl_append,
      List.length_append, Prod.mk.injEq]
    exact ⟨trivial, by omega⟩

/-- Rewriting `do_gsta` in terms of the qualifying-segments list: the accumulated sum
is the fold of `zipWith (+)` over exactly the qualifying segments, and the
divisor is their number (replaced by 1 when zero). -/
lemma do_gsta_eq (length dt : ℚ) (trials : List Trial) (n : ℕ) :
    do_gsta length dt trials n =
      ((qualifSegs dt (pyInt (length / dt)) n trials).foldl
          (List.zipWith (· + ·))
          (List.replicate (2 * pyInt (length / dt) + 1).toNat 0)).map
        (· / ((if (qualifSegs dt (pyInt (length / dt)) n trials).length = 0
            then 1
            else (qualifSegs dt (pyInt (length / dt)) n trials).length
              : ℕ) : ℚ)) := by
  unfold do_gsta
  dsimp only
  rw [foldl_stepTrial]
  norm_num

lemma pyInt_eq_floor {q : ℚ} (h : 0 ≤ q) : pyInt q = ⌊q⌋ := by
  unfold pyInt
  rw [if_neg (not_lt.2 h)]

lemma col_length (vals : List (List ℚ)) (n : ℕ) :
    (col vals n).length = vals.length := by
  simp [col]

lemma segment_length (t : Trial) (n : ℕ) (gstal idx : ℤ)
    (hg : 0 ≤ gstal) (h1 : 0 < idx - gstal)
    (h2 : idx + gstal + 1 ≤ (t.vals.length : ℤ)) :
    (segment t n gstal idx).length = (2 * gstal + 1).toNat := by
  simp only [segment, List.length_take, List.length_drop, col_length]
  omega

lemma mem_of_mem_segment (t : Trial) (n : ℕ) (gstal idx : ℤ) (x : ℚ)
    (hx : x ∈ segment t n gstal idx) : x ∈ col t.vals n := by
  unfold segment at hx
  exact ((List.take_sublist _ _).trans (List.drop_sublist _ _)).mem hx

lemma mem_qualifSegs (dt : ℚ) (gstal : ℤ) (n : ℕ) (trials : List Trial)
    (s : List ℚ) :
    s ∈ qualifSegs dt gstal n trials ↔
      ∃ t ∈ trials, ∃ time ∈ t.spikes.getD n [],
        contrib dt gstal n t time = some s := by
  simp [qualifSegs, List.mem_flatMap, List.mem_filterMap]

lemma contrib_some_iff (dt : ℚ) (gstal : ℤ) (n : ℕ) (t : Trial)
    (time : ℚ) (s : List ℚ) :
    contrib dt gstal n t time = some s ↔
      (t.tstart < time ∧ time < t.tstop) ∧
      (0 < spikeIdx dt t time - gstal ∧
        spikeIdx dt t time + gstal + 1 ≤ (t.vals.length : ℤ)) ∧
      s = segment t n gstal (spikeIdx dt t time) := by
  unfold contrib
  dsimp only
  by_cases h1 : t.tstart < time ∧ time < t.tstop
  · rw [if_pos h1]
    by_cases h2 : 0 < spikeIdx dt t time - gstal ∧
        spikeIdx dt t time + gstal + 1 ≤ (t.vals.length : ℤ)
    · rw [if_pos h2]
      simp [h1, h2, eq_comm]
    · rw [if_neg h2]
      constructor
      · intro h
        simp at h
      · rintro ⟨-, hab, -⟩
        exact absurd hab h2
  · rw [if_neg h1]
    simp [h1]

lemma zipWith_add_replicate_zero (s : List ℚ) :
    List.zipWith (· + ·) (List.replicate s.length (0 : ℚ)) s = s := by
  induction s with
  | nil => rfl
  | cons x xs ih => simp [List.replicate_succ, ih]

/-! ### Claims C1, C2, C6, C8, C9 about `GSTA.do_gsta` -/

/-- Claim C1, counterexample (line 155 uses `time > ans.t_start`, strict).
A spike exactly at the trace start time: the trace runs over `[0, 2)` with
constant value 7, the spike is at time 0 = `t_start`, the half-window is 0
samples, so under the claim's rule the window fits (`idx = 0`,
`idx - w = 0 ≥ 0`, `idx + w + 1 = 1 ≤ 2`) and the spike would contribute,
making the output `[7]`.  The code skips it: no segment is extracted and
the output stays `[0]`. -/
theorem gsta_spike_at_start_skipped :
    spikeIdx 1 ⟨[[7], [7]], 0, 2, [[0]]⟩ 0 = 0 ∧
    (⟨[[7], [7]], 0, 2, [[0]]⟩ : Trial).tstart = 0 ∧
    contrib 1 0 0 ⟨[[7], [7]], 0, 2, [[0]]⟩ 0 = none ∧
    do_gsta (1/2) 1 [⟨[[7], [7]], 0, 2, [[0]]⟩] 0 = [0] := by
  refine ⟨by norm_num [spikeIdx, pyInt], rfl, by norm_num [contrib], ?_⟩
  norm_num [do_gsta, stepTrial, stepSpike, spikeIdx, pyInt, segment, col]

/-- Claim C1, amended: a spike is passed to the window stage exactly when
its time lies strictly inside the open interval `(t_start, t_stop)` — a
spike exactly at the trace start time is NOT eligible — and any spike
outside those bounds contributes nothing (it is silently skipped; the
computation is total, no error is raised).  Stated as: the contribution of
a spike is the extracted segment exactly when the strict time bounds and
the window test both hold, and a spike at `t_start` never contributes. -/
theorem gsta_spike_time_gate (dt : ℚ) (gstal : ℤ) (n : ℕ) (t : Trial)
    (time : ℚ) :
    contrib dt gstal n t time =
      (if t.tstart < time ∧ time < t.tstop ∧
          0 < spikeIdx dt t time - gstal ∧
          spikeIdx dt t time + gstal + 1 ≤ (t.vals.length : ℤ)
        then some (segment t n gstal (spikeIdx dt t time))
        else none) ∧
    contrib dt gstal n t t.tstart = none := by
  constructor
  · unfold contrib
    dsimp only
    by_cases h1 : t.tstart < time ∧ time < t.tstop
    · rw [if_pos h1]
      by_cases h2 : 0 < spikeIdx dt t time - gstal ∧
          spikeIdx dt t time + gstal + 1 ≤ (t.vals.length : ℤ)
      · rw [if_pos h2, if_pos ⟨h1.1, h1.2, h2⟩]
      · rw [if_neg h2, if_neg (by tauto)]
    · rw [if_neg h1, if_neg (by tauto)]
  · unfold contrib
    rw [if_neg (by simp)]

/-- Claim C2, counterexample (line 157 uses `idx - gstal > 0`, strict).
Trace of 3 samples with half-window `w = 1`; the spike at time 3/2 has
sample index `idx = 1`, so the full window `[0,2]` fits inside the trace
in the claim's sense (`idx - w = 0 ≥ 0` and `idx + w + 1 = 3 ≤ 3`), yet
the code does not extract it: the segment is skipped and the average
stays all-zero. -/
theorem gsta_window_at_zero_skipped :
    spikeIdx 1 ⟨[[4], [4], [4]], 0, 3, [[3/2]]⟩ (3/2) = 1 ∧
    (0 : ℤ) ≤ spikeIdx 1 ⟨[[4], [4], [4]], 0, 3, [[3/2]]⟩ (3/2) - 1 ∧
    spikeIdx 1 ⟨[[4], [4], [4]], 0, 3, [[3/2]]⟩ (3/2) + 1 + 1 ≤
      ((⟨[[4], [4], [4]], 0, 3, [[3/2]]⟩ : Trial).vals.length : ℤ) ∧
    contrib 1 1 0 ⟨[[4], [4], [4]], 0, 3, [[3/2]]⟩ (3/2) = none ∧
    do_gsta 1 1 [⟨[[4], [4], [4]], 0, 3, [[3/2]]⟩] 0 = [0, 0, 0] := by
  refine ⟨by norm_num [spikeIdx, pyInt], by norm_num [spikeIdx, pyInt],
    by norm_num [spikeIdx, pyInt], by norm_num [contrib, spikeIdx, pyInt], ?_⟩
  norm_num [do_gsta, stepTrial, stepSpike, spikeIdx, pyInt, segment, col]
  simp [List.replicate_succ]

/-- Claim C2, amended: with half-window `w = gstal`, a windowed segment
around sample index `idx` is extracted if and only if `idx - w > 0`
(strictly; a window flush against index 0 is skipped) and
`idx + w + 1 ≤ trace length`; whenever a segment is extracted it is the
slice `[idx-w, idx+w]`, it has the full `2w+1` samples, and it lies
entirely within the trace's valid indices. -/
theorem gsta_window_rule (dt : ℚ) (gstal : ℤ) (n : ℕ) (t : Trial)
    (time : ℚ) (s : List ℚ) (hg : 0 ≤ gstal) :
    contrib dt gstal n t time = some s ↔
      ((t.tstart < time ∧ time < t.tstop) ∧
        0 < spikeIdx dt t time - gstal ∧
        spikeIdx dt t time + gstal + 1 ≤ (t.vals.length : ℤ) ∧
        s = segment t n gstal (spikeIdx dt t time) ∧
        s.length = (2 * gstal + 1).toNat ∧
        (spikeIdx dt t time - gstal).toNat + s.length ≤ t.vals.length) := by
  rw [contrib_some_iff]
  constructor
  · rintro ⟨h1, ⟨h2a, h2b⟩, hs⟩
    have hlen : s.length = (2 * gstal + 1).toNat := by
      rw [hs]
      exact segment_length t n gstal _ hg h2a h2b
    exact ⟨h1, h2a, h2b, hs, hlen, by rw [hlen]; omega⟩
  · rintro ⟨h1, h2a, h2b, hs, -, -⟩
    exact ⟨h1, ⟨h2a, h2b⟩, hs⟩

/-- Claim C2, witness for `gsta_window_rule` at a concrete input: trace of
5 constant samples, spike at time 5/2 (`idx = 2`), half-window 1. -/
theorem gsta_window_rule_witness :
    (0 : ℤ) ≤ 1 ∧
    (contrib 1 1 0 ⟨[[5], [5], [5], [5], [5]], 0, 5, [[5/2]]⟩ (5/2) =
        some [5, 5, 5] ↔
      (((⟨[[5], [5], [5], [5], [5]], 0, 5, [[5/2]]⟩ : Trial).tstart < 5/2 ∧
          (5 : ℚ)/2 < (⟨[[5], [5], [5], [5], [5]], 0, 5, [[5/2]]⟩ : Trial).tstop) ∧
        0 < spikeIdx 1 ⟨[[5], [5], [5], [5], [5]], 0, 5, [[5/2]]⟩ (5/2) - 1 ∧
        spikeIdx 1 ⟨[[5], [5], [5], [5], [5]], 0, 5, [[5/2]]⟩ (5/2) + 1 + 1 ≤
          ((⟨[[5], [5], [5], [5], [5]], 0, 5, [[5/2]]⟩ : Trial).vals.length : ℤ) ∧
        [(5 : ℚ), 5, 5] = segment ⟨[[5], [5], [5], [5], [5]], 0, 5, [[5/2]]⟩ 0 1
          (spikeIdx 1 ⟨[[5], [5], [5], [5], [5]], 0, 5, [[5/2]]⟩ (5/2)) ∧
        ([(5 : ℚ), 5, 5] : List ℚ).length = ((2 * 1 + 1 : ℤ)).toNat ∧
        (spikeIdx 1 ⟨[[5], [5], [5], [5], [5]], 0, 5, [[5/2]]⟩ (5/2) - 1).toNat +
          ([(5 : ℚ), 5, 5] : List ℚ).length ≤
          (⟨[[5], [5], [5], [5], [5]], 0, 5, [[5/2]]⟩ : Trial).vals.length)) :=
  ⟨by norm_num,
    gsta_window_rule 1 1 0 ⟨[[5], [5], [5], [5], [5]], 0, 5, [[5/2]]⟩ (5/2)
      [5, 5, 5] (by norm_num)⟩

/-- Claim C6: if no spike of the given neuron qualifies for accumulation
across all trials (the list of extracted segments is empty), the divisor
defaults to 1, no division by zero occurs, and the returned waveform is
the all-zero vector of length `2*floor(length/sampling_period) + 1`,
produced normally (the function is total). -/
theorem gsta_no_qualifying_spikes (length dt : ℚ) (trials : List Trial)
    (n : ℕ) (hl : 0 ≤ length) (hdt : 0 < dt)
    (h : qualifSegs dt (pyInt (length / dt)) n trials = []) :
    do_gsta length dt trials n =
      List.replicate (2 * (⌊length / dt⌋).toNat + 1) 0 := by
  have hq : 0 ≤ length / dt := div_nonneg hl hdt.le
  have hp : pyInt (length / dt) = ⌊length / dt⌋ := pyInt_eq_floor hq
  have hf : 0 ≤ ⌊length / dt⌋ := Int.floor_nonneg.2 hq
  rw [do_gsta_eq, h]
  simp only [List.foldl_nil, List.length_nil, reduceIte, Nat.cast_one,
    div_one, List.map_replicate]
  rw [hp]
  congr 1
  omega

/-- Claim C6, witness: one trial with three samples and no spikes at all. -/
theorem gsta_no_qualifying_spikes_witness :
    (0 : ℚ) ≤ 1 ∧ (0 : ℚ) < 1 ∧
    qualifSegs 1 (pyInt (1 / 1)) 0 [⟨[[1], [2], [3]], 0, 3, [[]]⟩] = [] ∧
    do_gsta 1 1 [⟨[[1], [2], [3]], 0, 3, [[]]⟩] 0 =
      List.replicate (2 * (⌊(1 : ℚ) / 1⌋).toNat + 1) 0 :=
  ⟨by norm_num, by norm_num, by norm_num [qualifSegs, pyInt],
    gsta_no_qualifying_spikes 1 1 [⟨[[1], [2], [3]], 0, 3, [[]]⟩] 0
      (by norm_num) (by norm_num) (by norm_num [qualifSegs, pyInt])⟩

/-- Claim C8: given exactly one qualifying spike, on a trace whose values
for the selected neuron are a constant `c`, the returned averaged waveform
equals `c` at every one of its `2*floor(length/sampling_period) + 1`
samples. -/
theorem gsta_single_spike_constant (length dt c : ℚ)
    (trials : List Trial) (n : ℕ) (s : List ℚ)
    (hl : 0 ≤ length) (hdt : 0 < dt)
    (hconst : ∀ t ∈ trials, ∀ x ∈ col t.vals n, x = c)
    (hone : qualifSegs dt (pyInt (length / dt)) n trials = [s]) :
    do_gsta length dt trials n =
      List.replicate (2 * (⌊length / dt⌋).toNat + 1) c := by
  have hq : 0 ≤ length / dt := div_nonneg hl hdt.le
  have hp : pyInt (length / dt) = ⌊length / dt⌋ := pyInt_eq_floor hq
  have hf : 0 ≤ ⌊length / dt⌋ := Int.floor_nonneg.2 hq
  have hs : s ∈ qualifSegs dt (pyInt (length / dt)) n trials := by
    rw [hone]
    exact List.mem_singleton.2 rfl
  obtain ⟨t, ht, time, -, hc⟩ := (mem_qualifSegs _ _ _ _ _).1 hs
  obtain ⟨h1, ⟨h2a, h2b⟩, hseg⟩ := (contrib_some_iff _ _ _ _ _ _).1 hc
  have hg : 0 ≤ pyInt (length / dt) := hp ▸ hf
  have hlen : s.length = (2 * pyInt (length / dt) + 1).toNat := by
    rw [hseg]
    exact segment_length t n _ _ hg h2a h2b
  have hmem : ∀ x ∈ s, x = c := fun x hx =>
    hconst t ht x (mem_of_mem_segment t n _ _ x (hseg ▸ hx))
  have hrep : s = List.replicate s.length c :=
    List.eq_replicate_iff.2 ⟨rfl, hmem⟩
  rw [do_gsta_eq, hone]
  simp only [List.foldl_cons, List.foldl_nil, List.length_cons,
    List.length_nil]
  rw [← hlen, zipWith_add_replicate_zero]
  norm_num
  rw [hrep]
  rw [hp] at hlen
  congr 1
  omega

/-- Concrete evaluation used by several witnesses: a trace of five
constant samples 5 on `[0,5)`, a single spike at the midpoint 5/2 with
half-window 1 sample, yields exactly one extracted segment `[5,5,5]`. -/
lemma qualifSegs_example :
    qualifSegs 1 (pyInt (1 / 1)) 0
      [⟨[[5], [5], [5], [5], [5]], 0, 5, [[5/2]]⟩] = [[5, 5, 5]] := by
  norm_num [qualifSegs, List.filterMap_cons, contrib, spikeIdx, pyInt,
    segment, col]
  simp [List.take_succ_cons]

/-- Claim C8, witness: trace of five constant samples `c = 5`, a single
spike at the trace midpoint 5/2, half-window of 1 sample. -/
theorem gsta_single_spike_constant_witness :
    (0 : ℚ) ≤ 1 ∧ (0 : ℚ) < 1 ∧
    (∀ t ∈ [(⟨[[5], [5], [5], [5], [5]], 0, 5, [[5/2]]⟩ : Trial)],
      ∀ x ∈ col t.vals 0, x = 5) ∧
    qualifSegs 1 (pyInt (1 / 1)) 0
      [⟨[[5], [5], [5], [5], [5]], 0, 5, [[5/2]]⟩] = [[5, 5, 5]] ∧
    do_gsta 1 1 [⟨[[5], [5], [5], [5], [5]], 0, 5, [[5/2]]⟩] 0 =
      List.replicate (2 * (⌊(1 : ℚ) / 1⌋).toNat + 1) 5 :=
  ⟨by norm_num, by norm_num, by simp [col], qualifSegs_example,
    gsta_single_spike_constant 1 1 5
      [⟨[[5], [5], [5], [5], [5]], 0, 5, [[5/2]]⟩] 0 [5, 5, 5]
      (by norm_num) (by norm_num) (by simp [col]) qualifSegs_example⟩

/-- Claim C9: the divisor counter is incremented exactly when a windowed
segment is accumulated, so whenever at least one segment was extracted the
returned waveform is the exact arithmetic mean of exactly the extracted
windowed segments (their elementwise sum divided by their number); a spike
inside the trace's time bounds whose window does not fit affects neither
the sum nor the divisor, since it contributes no entry to the extracted
list. -/
theorem gsta_mean_of_extracted (length dt : ℚ) (trials : List Trial)
    (n : ℕ) (h : qualifSegs dt (pyInt (length / dt)) n trials ≠ []) :
    do_gsta length dt trials n =
      ((qualifSegs dt (pyInt (length / dt)) n trials).foldl
          (List.zipWith (· + ·))
          (List.replicate (2 * pyInt (length / dt) + 1).toNat 0)).map
        (· / ((qualifSegs dt (pyInt (length / dt)) n trials).length : ℚ)) := by
  rw [do_gsta_eq]
  rw [if_neg (fun h0 => h (List.length_eq_zero.1 h0))]

/-- Claim C9, witness: one trial, one qualifying spike. -/
theorem gsta_mean_of_extracted_witness :
    qualifSegs 1 (pyInt (1 / 1)) 0
        [⟨[[5], [5], [5], [5], [5]], 0, 5, [[5/2]]⟩] ≠ [] ∧
    do_gsta 1 1 [⟨[[5], [5], [5], [5], [5]], 0, 5, [[5/2]]⟩] 0 =
      ((qualifSegs 1 (pyInt (1 / 1)) 0
            [⟨[[5], [5], [5], [5], [5]], 0, 5, [[5/2]]⟩]).foldl
          (List.zipWith (· + ·))
          (List.replicate (2 * pyInt (1 / 1) + 1).toNat 0)).map
        (· / ((qualifSegs 1 (pyInt (1 / 1)) 0
            [⟨[[5], [5], [5], [5], [5]], 0, 5, [[5/2]]⟩]).length : ℚ)) :=
  ⟨by rw [qualifSegs_example]; simp,
    gsta_mean_of_extracted 1 1
      [⟨[[5], [5], [5], [5], [5]], 0, 5, [[5/2]]⟩] 0
      (by rw [qualifSegs_example]; simp)⟩

/-! ### Precision (`Precision.analyse`, analysis.py lines 196-199)

`ac = numpy.correlate(hist[n], hist[n], mode='full')` produces the
full-mode autocorrelation of the per-neuron histogram with itself:
for a histogram of length `N` the output has length `2N-1`, and entry
`k` (for `0 ≤ k ≤ 2N-2`) is the sum over `i` of
`hist[i] * hist[i + k - (N-1)]`, with out-of-range shifted indices
contributing nothing.  `if numpy.sum(numpy.power(hist[n],2)) != 0`
the vector is divided elementwise by that sum of squares. -/

/-- Entry `k` of `numpy.correlate(h, h, mode='full')`. -/
def acEntry (h : List ℚ) (k : ℕ) : ℚ :=
  ∑ i in Finset.range h.length,
    if 0 ≤ (i : ℤ) + ((k : ℤ) - ((h.length : ℤ) - 1)) ∧
        (i : ℤ) + ((k : ℤ) - ((h.length : ℤ) - 1)) < (h.length : ℤ)
    then h.getD i 0 *
      h.getD ((i : ℤ) + ((k : ℤ) - ((h.length : ℤ) - 1))).toNat 0
    else 0

/-- Full vector `numpy.correlate(h, h, mode='full')` of length `2N-1`. -/
def correlateFull (h : List ℚ) : List ℚ :=
  (List.range (2 * h.length - 1)).map (acEntry h)

/-- Value `numpy.sum(numpy.power(hist, 2))`. -/
def sumSq (h : List ℚ) : ℚ := (h.map (fun x => x * x)).sum

/-- Lines 196-198: the autocorrelation as computed by `Precision.analyse`
for one neuron's histogram — normalized by the sum of squares when that
sum is nonzero, left unnormalized otherwise. -/
def precisionAC (h : List ℚ) : List ℚ :=
  if sumSq h ≠ 0 then (correlateFull h).map (· / sumSq h)
  else correlateFull h

lemma correlateFull_length (h : List ℚ) :
    (correlateFull h).length = 2 * h.length - 1 := by
  simp [correlateFull]

lemma precisionAC_length (h : List ℚ) :
    (precisionAC h).length = 2 * h.length - 1 := by
  unfold precisionAC
  by_cases hS : sumSq h ≠ 0
  · rw [if_pos hS]
    simp [correlateFull]
  · rw [if_neg hS]
    exact correlateFull_length h

lemma sum_map_eq_sum_range (f : ℚ → ℚ) (l : List ℚ) :
    (l.map f).sum = ∑ i in Finset.range l.length, f (l.getD i 0) := by
  induction l with
  | nil => simp
  | cons x xs ih =>
    simp [List.sum_cons, Finset.sum_range_succ', ih]
    exact add_comm _ _

lemma getD_eq_zero_of_all_zero {h : List ℚ} (hz : ∀ x ∈ h, x = 0)
    (i : ℕ) : h.getD i 0 = 0 := by
  by_cases hi : i < h.length
  · rw [List.getD_eq_getElem h 0 hi]
    exact hz _ (List.getElem_mem hi)
  · exact List.getD_eq_default h 0 (le_of_not_lt hi)

lemma sumSq_eq_zero_of_all_zero {h : List ℚ} (hz : ∀ x ∈ h, x = 0) :
    sumSq h = 0 := by
  unfold sumSq
  apply List.sum_eq_zero
  intro x hx
  obtain ⟨y, hy, rfl⟩ := List.mem_map.1 hx
  rw [hz y hy, mul_zero]

lemma acEntry_eq_zero_of_all_zero {h : List ℚ} (hz : ∀ x ∈ h, x = 0)
    (k : ℕ) : acEntry h k = 0 := by
  unfold acEntry
  apply Finset.sum_eq_zero
  intro i _
  rw [getD_eq_zero_of_all_zero hz]
  split
  · rw [zero_mul]
  · rfl

/-- Claim C7: for every per-neuron histogram, the computed autocorrelation
is the full-mode autocorrelation of the histogram with itself, of length
`2N-1`; it is divided by the sum of squared histogram values when that sum
is nonzero; and when the histogram is all zero the result is left
unnormalized — an all-zero vector of length `2N-1` — produced normally
(no division is attempted, the computation is total). -/
theorem precision_autocorr_normalization (h : List ℚ)
    (hz : ∀ x ∈ h, x = 0) :
    (∀ g : List ℚ, (precisionAC g).length = 2 * g.length - 1) ∧
    (∀ g : List ℚ, sumSq g ≠ 0 →
      precisionAC g = (correlateFull g).map (· / sumSq g)) ∧
    sumSq h = 0 ∧
    precisionAC h = List.replicate (2 * h.length - 1) 0 := by
  refine ⟨precisionAC_length, ?_, sumSq_eq_zero_of_all_zero hz, ?_⟩
  · intro g hg
    unfold precisionAC
    rw [if_pos hg]
  · have h0 : sumSq h = 0 := sumSq_eq_zero_of_all_zero hz
    unfold precisionAC
    rw [if_neg (by simp [h0])]
    refine List.eq_replicate_iff.2 ⟨correlateFull_length h, ?_⟩
    intro b hb
    obtain ⟨k, -, rfl⟩ := List.mem_map.1 hb
    exact acEntry_eq_zero_of_all_zero hz k

/-- Claim C7, witness: the all-zero histogram `[0, 0]` of length 2. -/
theorem precision_autocorr_normalization_witness :
    (∀ x ∈ [(0 : ℚ), 0], x = 0) ∧
    ((∀ g : List ℚ, (precisionAC g).length = 2 * g.length - 1) ∧
      (∀ g : List ℚ, sumSq g ≠ 0 →
        precisionAC g = (correlateFull g).map (· / sumSq g)) ∧
      sumSq [(0 : ℚ), 0] = 0 ∧
      precisionAC [(0 : ℚ), 0] =
        List.replicate (2 * ([(0 : ℚ), 0] : List ℚ).length - 1) 0) :=
  ⟨by simp, precision_autocorr_normalization [0, 0] (by simp)⟩

lemma sumSq_nonneg (h : List ℚ) : 0 ≤ sumSq h := by
  unfold sumSq
  apply List.sum_nonneg
  intro x hx
  obtain ⟨y, -, rfl⟩ := List.mem_map.1 hx
  exact mul_self_nonneg y

lemma acEntry_zero_lag (h : List ℚ) (hne : h ≠ []) :
    acEntry h (h.length - 1) = sumSq h := by
  have hN : 0 < h.length := List.length_pos.2 hne
  unfold acEntry
  rw [sumSq, sum_map_eq_sum_range]
  apply Finset.sum_congr rfl
  intro i hi
  simp only [Finset.mem_range] at hi
  have hcast : ((h.length - 1 : ℕ) : ℤ) = (h.length : ℤ) - 1 := by omega
  rw [hcast, if_pos (by omega)]
  have hidx :
      ((i : ℤ) + (((h.length : ℤ) - 1) - ((h.length : ℤ) - 1))).toNat = i := by
    omega
  rw [hidx]

lemma sum_ite_shift (f : ℕ → ℚ) (N i : ℕ) (lag : ℤ) :
    (∑ j in Finset.range N,
      if (j : ℤ) - (i : ℤ) = lag then f j else 0) =
      (if 0 ≤ (i : ℤ) + lag ∧ (i : ℤ) + lag < (N : ℤ)
        then f ((i : ℤ) + lag).toNat else 0) := by
  by_cases hc : 0 ≤ (i : ℤ) + lag ∧ (i : ℤ) + lag < (N : ℤ)
  · rw [if_pos hc,
      Finset.sum_eq_single_of_mem (((i : ℤ) + lag).toNat)
        (Finset.mem_range.2 (by omega))
        (fun j hj hne => by
          simp only [Finset.mem_range] at hj
          rw [if_neg (by omega)]),
      if_pos (by omega)]
  · rw [if_neg hc]
    apply Finset.sum_eq_zero
    intro j hj
    simp only [Finset.mem_range] at hj
    rw [if_neg (by omega)]

lemma acEntry_eq_double (h : List ℚ) (k : ℕ) :
    acEntry h k =
      ∑ i in Finset.range h.length, ∑ j in Finset.range h.length,
        if (j : ℤ) - (i : ℤ) = (k : ℤ) - ((h.length : ℤ) - 1)
        then h.getD i 0 * h.getD j 0 else 0 := by
  unfold acEntry
  apply Finset.sum_congr rfl
  intro i _
  exact (sum_ite_shift (fun j => h.getD i 0 * h.getD j 0) h.length i
    ((k : ℤ) - ((h.length : ℤ) - 1))).symm

lemma acEntry_symm (h : List ℚ) (k : ℕ) (hk : k < 2 * h.length - 1) :
    acEntry h (2 * h.length - 2 - k) = acEntry h k := by
  rw [acEntry_eq_double, acEntry_eq_double, Finset.sum_comm]
  refine Finset.sum_congr rfl fun i hi => Finset.sum_congr rfl fun j hj => ?_
  simp only [Finset.mem_range] at hi hj
  exact if_congr (by omega) (mul_comm _ _) rfl

lemma abs_acEntry_le_sumSq (h : List ℚ) (k : ℕ) :
    |acEntry h k| ≤ sumSq h := by
  have hfilter : acEntry h k =
      ∑ i in (Finset.range h.length).filter
          (fun i : ℕ => 0 ≤ (i : ℤ) + ((k : ℤ) - ((h.length : ℤ) - 1)) ∧
            (i : ℤ) + ((k : ℤ) - ((h.length : ℤ) - 1)) < (h.length : ℤ)),
        h.getD i 0 *
          h.getD ((i : ℤ) + ((k : ℤ) - ((h.length : ℤ) - 1))).toNat 0 := by
    rw [acEntry, Finset.sum_filter]
  have hSS : sumSq h =
      ∑ i in Finset.range h.length, h.getD i 0 ^ 2 := by
    rw [sumSq, sum_map_eq_sum_range]
    exact Finset.sum_congr rfl fun i _ => (pow_two _).symm
  set S := (Finset.range h.length).filter
    (fun i : ℕ => 0 ≤ (i : ℤ) + ((k : ℤ) - ((h.length : ℤ) - 1)) ∧
      (i : ℤ) + ((k : ℤ) - ((h.length : ℤ) - 1)) < (h.length : ℤ)) with hSdef
  have hcs := Finset.sum_mul_sq_le_sq_mul_sq S
    (fun i => h.getD i 0)
    (fun i => h.getD ((i : ℤ) + ((k : ℤ) - ((h.length : ℤ) - 1))).toNat 0)
  have hA : (∑ i in S, h.getD i 0 ^ 2) ≤ sumSq h := by
    rw [hSS]
    exact Finset.sum_le_sum_of_subset_of_nonneg (Finset.filter_subset _ _)
      (fun i _ _ => sq_nonneg _)
  have hB : (∑ i in S,
      h.getD ((i : ℤ) + ((k : ℤ) - ((h.length : ℤ) - 1))).toNat 0 ^ 2) ≤
      sumSq h := by
    have hinj : ∀ x ∈ S, ∀ y ∈ S,
        ((x : ℤ) + ((k : ℤ) - ((h.length : ℤ) - 1))).toNat =
          ((y : ℤ) + ((k : ℤ) - ((h.length : ℤ) - 1))).toNat → x = y := by
      intro x hx y hy hxy
      rw [hSdef, Finset.mem_filter] at hx hy
      omega
    have himg : (∑ j in S.image
          (fun x : ℕ => ((x : ℤ) + ((k : ℤ) - ((h.length : ℤ) - 1))).toNat),
        h.getD j 0 ^ 2) =
        ∑ i in S, h.getD ((i : ℤ) + ((k : ℤ) - ((h.length : ℤ) - 1))).toNat 0 ^ 2 :=
      Finset.sum_image hinj
    rw [← himg, hSS]
    apply Finset.sum_le_sum_of_subset_of_nonneg
    · intro j hj
      rw [Finset.mem_image] at hj
      obtain ⟨i, hiS, rfl⟩ := hj
      rw [hSdef, Finset.mem_filter] at hiS
      rw [Finset.mem_range]
      omega
    · exact fun i _ _ => sq_nonneg _
  have hsq : acEntry h k ^ 2 ≤ sumSq h ^ 2 := by
    rw [hfilter, pow_two (sumSq h)]
    exact hcs.trans (mul_le_mul hA hB
      (Finset.sum_nonneg fun i _ => sq_nonneg _) (sumSq_nonneg h))
  exact abs_le_of_sq_le_sq hsq (sumSq_nonneg h)

lemma precisionAC_getD (h : List ℚ) (hS : sumSq h ≠ 0) (k : ℕ)
    (hk : k < 2 * h.length - 1) :
    (precisionAC h).getD k 0 = acEntry h k / sumSq h := by
  unfold precisionAC
  rw [if_pos hS]
  have hlen : k < ((correlateFull h).map (· / sumSq h)).length := by
    simpa [correlateFull] using hk
  rw [List.getD_eq_getElem _ 0 hlen]
  simp [correlateFull]

lemma precisionAC_getD_oob (h : List ℚ) (k : ℕ)
    (hk : 2 * h.length - 1 ≤ k) : (precisionAC h).getD k 0 = 0 :=
  List.getD_eq_default _ _ (by rw [precisionAC_length]; exact hk)

/-- Claim C10: for every histogram with nonzero sum of squares, the
normalized autocorrelation equals 1 at zero lag (index `N-1`), is
symmetric about zero lag (`ac[k] = ac[2N-2-k]` for indices inside the
output), and every value has absolute value at most 1 (by the
Cauchy-Schwarz inequality; indices past the end read the default 0). -/
theorem precision_normalized_autocorr_props (h : List ℚ) (hne : h ≠ [])
    (hS : sumSq h ≠ 0) :
    (precisionAC h).getD (h.length - 1) 0 = 1 ∧
    (∀ k, k < 2 * h.length - 1 →
      (precisionAC h).getD k 0 =
        (precisionAC h).getD (2 * h.length - 2 - k) 0) ∧
    (∀ k, |(precisionAC h).getD k 0| ≤ 1) := by
  have hN : 0 < h.length := List.length_pos.2 hne
  have hSpos : 0 < sumSq h := lt_of_le_of_ne (sumSq_nonneg h) (Ne.symm hS)
  refine ⟨?_, ?_, ?_⟩
  · rw [precisionAC_getD h hS _ (by omega), acEntry_zero_lag h hne,
      div_self hS]
  · intro k hk
    rw [precisionAC_getD h hS k hk, precisionAC_getD h hS _ (by omega),
      acEntry_symm h k hk]
  · intro k
    by_cases hk : k < 2 * h.length - 1
    · rw [precisionAC_getD h hS k hk, abs_div, abs_of_pos hSpos,
        div_le_one hSpos]
      exact abs_acEntry_le_sumSq h k
    · rw [precisionAC_getD_oob h k (le_of_not_lt hk)]
      simp

/-- Claim C10, witness: the histogram `[1, 2]` with sum of squares 5. -/
theorem precision_normalized_autocorr_props_witness :
    ([(1 : ℚ), 2] : List ℚ) ≠ [] ∧ sumSq [(1 : ℚ), 2] ≠ 0 ∧
    ((precisionAC [(1 : ℚ), 2]).getD (([(1 : ℚ), 2] : List ℚ).length - 1) 0 = 1 ∧
      (∀ k, k < 2 * ([(1 : ℚ), 2] : List ℚ).length - 1 →
        (precisionAC [(1 : ℚ), 2]).getD k 0 =
          (precisionAC [(1 : ℚ), 2]).getD
            (2 * ([(1 : ℚ), 2] : List ℚ).length - 2 - k) 0) ∧
      (∀ k, |(precisionAC [(1 : ℚ), 2]).getD k 0| ≤ 1)) :=
  ⟨by simp, by norm_num [sumSq],
    precision_normalized_autocorr_props [1, 2] (by simp)
      (by norm_num [sumSq])⟩

/-! ### Vector-average estimator
(`PeriodicTuningCurvePreferenceAndSelectivity_VectorAverage.analyse`,
analysis.py lines 91-106)

For one residual parametrization `k`, `d[k] = (g, h)` is the list of
`(value, parameter)` pairs; the loop at lines 96-101 accumulates
`x = Σ cos(p/period*2π)·v`, `y = Σ sin(p/period*2π)·v` and
`n = Σ sqrt(xx² + yy²)`; then `sel = sqrt(x²+y²)/n` and
`pref = arccos(x/sqrt(x²+y²))` (lines 102-103), with no check on `n`
or on the magnitude.  Modelled over `ℝ`. -/

/-- Accumulator `x` after the loop: the summed cosine components. -/
noncomputable def vaX (pts : List (ℝ × ℝ)) (period : ℝ) : ℝ :=
  (pts.map (fun vp => Real.cos (vp.2 / period * 2 * Real.pi) * vp.1)).sum

/-- Accumulator `y` after the loop: the summed sine components. -/
noncomputable def vaY (pts : List (ℝ × ℝ)) (period : ℝ) : ℝ :=
  (pts.map (fun vp => Real.sin (vp.2 / period * 2 * Real.pi) * vp.1)).sum

/-- Accumulator `n` after the loop: the summed per-point vector norms. -/
noncomputable def vaN (pts : List (ℝ × ℝ)) (period : ℝ) : ℝ :=
  (pts.map (fun vp =>
    Real.sqrt ((Real.cos (vp.2 / period * 2 * Real.pi) * vp.1) ^ 2 +
      (Real.sin (vp.2 / period * 2 * Real.pi) * vp.1) ^ 2))).sum

/-- Selectivity `sel` (line 102). -/
noncomputable def vaSel (pts : List (ℝ × ℝ)) (period : ℝ) : ℝ :=
  Real.sqrt (vaX pts period ^ 2 + vaY pts period ^ 2) / vaN pts period

/-- Preference `pref` (line 103). -/
noncomputable def vaPref (pts : List (ℝ × ℝ)) (period : ℝ) : ℝ :=
  Real.arccos (vaX pts period /
    Real.sqrt (vaX pts period ^ 2 + vaY pts period ^ 2))

lemma sqrt_add_sq_triangle (a b c d : ℝ) :
    Real.sqrt ((a + c) ^ 2 + (b + d) ^ 2) ≤
      Real.sqrt (a ^ 2 + b ^ 2) + Real.sqrt (c ^ 2 + d ^ 2) := by
  have e1 : Real.sqrt (a ^ 2 + b ^ 2) ^ 2 = a ^ 2 + b ^ 2 :=
    Real.sq_sqrt (by positivity)
  have e2 : Real.sqrt (c ^ 2 + d ^ 2) ^ 2 = c ^ 2 + d ^ 2 :=
    Real.sq_sqrt (by positivity)
  have hcs : a * c + b * d ≤
      Real.sqrt (a ^ 2 + b ^ 2) * Real.sqrt (c ^ 2 + d ^ 2) := by
    have h2 : (a * c + b * d) ^ 2 ≤ (a ^ 2 + b ^ 2) * (c ^ 2 + d ^ 2) := by
      nlinarith [sq_nonneg (a * d - b * c)]
    calc a * c + b * d ≤ |a * c + b * d| := le_abs_self _
      _ = Real.sqrt ((a * c + b * d) ^ 2) := (Real.sqrt_sq_eq_abs _).symm
      _ ≤ Real.sqrt ((a ^ 2 + b ^ 2) * (c ^ 2 + d ^ 2)) :=
        Real.sqrt_le_sqrt h2
      _ = Real.sqrt (a ^ 2 + b ^ 2) * Real.sqrt (c ^ 2 + d ^ 2) :=
        Real.sqrt_mul (by positivity) _
  have h1 : (a + c) ^ 2 + (b + d) ^ 2 ≤
      (Real.sqrt (a ^ 2 + b ^ 2) + Real.sqrt (c ^ 2 + d ^ 2)) ^ 2 := by
    nlinarith [e1, e2, hcs]
  calc Real.sqrt ((a + c) ^ 2 + (b + d) ^ 2)
      ≤ Real.sqrt ((Real.sqrt (a ^ 2 + b ^ 2) +
          Real.sqrt (c ^ 2 + d ^ 2)) ^ 2) := Real.sqrt_le_sqrt h1
    _ = Real.sqrt (a ^ 2 + b ^ 2) + Real.sqrt (c ^ 2 + d ^ 2) :=
        Real.sqrt_sq (by positivity)

lemma magnitude_le_vaN (pts : List (ℝ × ℝ)) (period : ℝ) :
    Real.sqrt (vaX pts period ^ 2 + vaY pts period ^ 2) ≤ vaN pts period := by
  induction pts with
  | nil => simp [vaX, vaY, vaN]
  | cons vp rest ih =>
    have hX : vaX (vp :: rest) period =
        Real.cos (vp.2 / period * 2 * Real.pi) * vp.1 + vaX rest period := by
      simp [vaX]
    have hY : vaY (vp :: rest) period =
        Real.sin (vp.2 / period * 2 * Real.pi) * vp.1 + vaY rest period := by
      simp [vaY]
    have hN : vaN (vp :: rest) period =
        Real.sqrt ((Real.cos (vp.2 / period * 2 * Real.pi) * vp.1) ^ 2 +
          (Real.sin (vp.2 / period * 2 * Real.pi) * vp.1) ^ 2) +
          vaN rest period := by
      simp [vaN]
    rw [hX, hY, hN]
    calc Real.sqrt ((Real.cos (vp.2 / period * 2 * Real.pi) * vp.1 +
          vaX rest period) ^ 2 +
          (Real.sin (vp.2 / period * 2 * Real.pi) * vp.1 +
            vaY rest period) ^ 2)
        ≤ Real.sqrt ((Real.cos (vp.2 / period * 2 * Real.pi) * vp.1) ^ 2 +
            (Real.sin (vp.2 / period * 2 * Real.pi) * vp.1) ^ 2) +
          Real.sqrt (vaX rest period ^ 2 + vaY rest period ^ 2) :=
        sqrt_add_sq_triangle _ _ _ _
      _ ≤ _ := by linarith [ih]

lemma vaN_nonneg (pts : List (ℝ × ℝ)) (period : ℝ) :
    0 ≤ vaN pts period := by
  unfold vaN
  apply List.sum_nonneg
  intro x hx
  obtain ⟨vp, -, rfl⟩ := List.mem_map.1 hx
  exact Real.sqrt_nonneg _

/-- Claim C3: for every residual parametrization, the emitted preference is
`arccos(x/sqrt(x²+y²))` and lies in `[0, π]`, and the emitted selectivity is
`sqrt(x²+y²)` divided by the summed per-point vector norms and lies in
`[0, 1]`, given the per-point norm sum is nonzero and all responses are
nonnegative (the `[0,1]` bound uses the triangle inequality
`sqrt(x²+y²) ≤ n`). -/
theorem vector_average_pref_sel (pts : List (ℝ × ℝ)) (period : ℝ)
    (hn : vaN pts period ≠ 0) (hv : ∀ vp ∈ pts, 0 ≤ vp.1) :
    vaPref pts period =
      Real.arccos (vaX pts period /
        Real.sqrt (vaX pts period ^ 2 + vaY pts period ^ 2)) ∧
    0 ≤ vaPref pts period ∧ vaPref pts period ≤ Real.pi ∧
    vaSel pts period =
      Real.sqrt (vaX pts period ^ 2 + vaY pts period ^ 2) / vaN pts period ∧
    0 ≤ vaSel pts period ∧ vaSel pts period ≤ 1 := by
  have hpos : 0 < vaN pts period :=
    lt_of_le_of_ne (vaN_nonneg pts period) (Ne.symm hn)
  refine ⟨rfl, Real.arccos_nonneg _, Real.arccos_le_pi _, rfl, ?_, ?_⟩
  · exact div_nonneg (Real.sqrt_nonneg _) hpos.le
  · rw [vaSel, div_le_one hpos]
    exact magnitude_le_vaN pts period

/-- Claim C3, witness: the single point `(v, p) = (1, 0)` with period 1,
whose vector norm sum is `sqrt(cos(0)² + sin(0)²) = 1 ≠ 0`. -/
theorem vector_average_pref_sel_witness :
    vaN [((1 : ℝ), 0)] 1 ≠ 0 ∧ (∀ vp ∈ [((1 : ℝ), (0 : ℝ))], 0 ≤ vp.1) ∧
    (vaPref [((1 : ℝ), 0)] 1 =
        Real.arccos (vaX [((1 : ℝ), 0)] 1 /
          Real.sqrt (vaX [((1 : ℝ), 0)] 1 ^ 2 + vaY [((1 : ℝ), 0)] 1 ^ 2)) ∧
      0 ≤ vaPref [((1 : ℝ), 0)] 1 ∧ vaPref [((1 : ℝ), 0)] 1 ≤ Real.pi ∧
      vaSel [((1 : ℝ), 0)] 1 =
        Real.sqrt (vaX [((1 : ℝ), 0)] 1 ^ 2 + vaY [((1 : ℝ), 0)] 1 ^ 2) /
          vaN [((1 : ℝ), 0)] 1 ∧
      0 ≤ vaSel [((1 : ℝ), 0)] 1 ∧ vaSel [((1 : ℝ), 0)] 1 ≤ 1) :=
  ⟨by simp [vaN], by simp,
    vector_average_pref_sel [((1 : ℝ), 0)] 1 (by simp [vaN]) (by simp)⟩

/-- Claim C4 states the zero-magnitude case fails with an explicit error;
the code has no such check: lines 94-106 contain no branch on `n`, the
division `sqrt(x²+y²)/n` and the `arccos` are evaluated unconditionally,
and the resulting values are stored.  At the failing input — a residual
parametrization whose responses are all zero, here the single point
`(v, p) = (0, 0)` — the code computes `n = 0`, still divides by it, and
still produces and stores a preference and a selectivity (in the
floating-point implementation these are NaN; in this real-valued model the
division by zero yields the junk value 0 and `pref = arccos 0 = π/2`).
No error path exists. -/
theorem vector_average_zero_magnitude_not_handled :
    vaN [((0 : ℝ), 0)] 1 = 0 ∧
    vaSel [((0 : ℝ), 0)] 1 =
      Real.sqrt (vaX [((0 : ℝ), 0)] 1 ^ 2 + vaY [((0 : ℝ), 0)] 1 ^ 2) / 0 ∧
    vaPref [((0 : ℝ), 0)] 1 = Real.arccos 0 ∧
    vaPref [((0 : ℝ), 0)] 1 = Real.pi / 2 := by
  have hN : vaN [((0 : ℝ), 0)] 1 = 0 := by simp [vaN]
  have hX : vaX [((0 : ℝ), 0)] 1 = 0 := by simp [vaX]
  refine ⟨hN, by rw [vaSel, hN], ?_, ?_⟩
  · rw [vaPref, hX, zero_div]
  · rw [vaPref, hX, zero_div, Real.arccos_zero]

/-! ### AveragedOrientationTuning (analysis.py lines 53-74)

The per-sheet body of `AveragedOrientationTuning.analyse`: the per-trial
mean-rate arrays and their stimulus descriptors are collapsed with
`colapse(mean_rates, st, parameter_indexes=[8])`, each group is averaged
with `_mean(a) = sum(a)/len(a)` (elementwise on arrays), and the result is
stored as `CyclicTuningCurve(numpy.pi, mean_rates, s, 9, sheet,
'Response', munits.spike/qt.s, ...)` (line 74).  Stimulus descriptors are
ordered lists of parameter values over an arbitrary decidable-equality
value type. -/

/-- The unit `munits.spike / qt.s` attached at lines 72-74. -/
inductive PhysUnit where
  | spikesPerSecond
deriving DecidableEq

/-- The payload of `CyclicTuningCurve(numpy.pi, mean_rates, s, 9, ...)`
built at line 74 (sheet name, value name and tags are passed through
unchanged and omitted here). -/
structure CyclicTuningCurveData (V : Type) where
  period : ℝ
  values : List (List ℚ)
  stimuli : List (List V)
  parameter_index : ℕ
  units : PhysUnit

/-- Modelled from the spec: the grouping key of the `colapse` utility
(`mozaik.stimuli.stimulus_generator.colapse`, not under src/): the
descriptor with the excluded parameter indexes blanked out, so that
"group membership is determined by equality of all non-excluded parameter
values". -/
def keyFrom {V : Type} (excluded : List ℕ) : ℕ → List V → List (Option V)
  | _, [] => []
  | i, v :: rest =>
    (if i ∈ excluded then none else some v) :: keyFrom excluded (i + 1) rest

/-- The grouping key of a whole descriptor. -/
def keyOf {V : Type} (excluded : List ℕ) (st : List V) : List (Option V) :=
  keyFrom excluded 0 st

/-- The distinct keys of a list, in first-occurrence order. -/
def uniqueKeys {K : Type} [DecidableEq K] : List K → List K
  | [] => []
  | k :: ks => k :: uniqueKeys (ks.filter (fun x => x ≠ k))
termination_by l => l.length
decreasing_by
  exact Nat.lt_succ_of_le (List.length_filter_le _ _)

/-- Modelled from the spec: `colapse` from
`mozaik.stimuli.stimulus_generator` (its source is not under src/):
"Output: a list of grouped numeric-array collections and the set of
representative descriptors, one per group, where group membership is
determined by equality of all non-excluded parameter values"; groups are
listed in first-occurrence order and each group is represented by its
first descriptor. -/
def colapse {V : Type} [DecidableEq V] (arrays : List (List ℚ))
    (sts : List (List V)) (excluded : List ℕ) :
    List (List (List ℚ)) × List (List V) :=
  let keys := uniqueKeys (sts.map (keyOf excluded))
  (keys.map (fun k =>
      ((arrays.zip sts).filter
        (fun p => keyOf excluded p.2 = k)).map Prod.fst),
    keys.map (fun k =>
      (sts.filter (fun st => keyOf excluded st = k)).headD []))

/-- The elementwise sum `sum(a)` of a group of numpy arrays (Python `sum`
starts from the scalar 0, which broadcasts). -/
def vecSum : List (List ℚ) → List ℚ
  | [] => []
  | x :: xs => xs.foldl (List.zipWith (· + ·)) x

/-- Helper `_mean` (lines 66-68): `sum(a)/l` with `l = len(a)`, elementwise. -/
def meanArr (a : List (List ℚ)) : List ℚ :=
  (vecSum a).map (· / (a.length : ℚ))

/-- Lines 62-74 for one sheet, after the per-segment mean rates have been
obtained from the store: collapse excluding parameter index 8, average
each group, and build the cyclic tuning curve with period `π`, varying
parameter index 9 and unit spikes/second. -/
noncomputable def analyseOrientationTuning {V : Type} [DecidableEq V]
    (mean_rates : List (List ℚ)) (st : List (List V)) :
    CyclicTuningCurveData V :=
  let r := colapse mean_rates st [8]
  ⟨Real.pi, r.1.map meanArr, r.2, 9, PhysUnit.spikesPerSecond⟩

/-- Claim C5, counterexample.  The claim's merge criterion — recordings
sharing identical stimulus parameters except orientation are merged — and
its expected output cannot both hold: `colapse` is called with excluded
parameter index 8 (line 64), so recordings whose descriptors agree
everywhere except at the excluded index share one grouping key.  If
orientation occupied that collapsed slot (as the criterion asserts), the
three example recordings (rates 10 and 20 at orientation 0, rate 5 at
orientation 1/2·π, all other parameters equal) all share one key: the code
merges all three into a single group with mean 35/3, a one-entry curve —
not the claimed two entries {0: 15, π/2: 5}.  (The descriptor value 1/2
stands for the float π/2; the grouping only compares values for
equality.) -/
theorem orientation_tuning_merge_criterion_counterexample :
    analyseOrientationTuning
        [[10], [20], [5]]
        ([[0, 0, 0, 0, 0, 0, 0, 0, 0], [0, 0, 0, 0, 0, 0, 0, 0, 0],
          [0, 0, 0, 0, 0, 0, 0, 0, 1/2]] : List (List ℚ)) =
      ⟨Real.pi, [[35/3]], [[0, 0, 0, 0, 0, 0, 0, 0, 0]], 9,
        PhysUnit.spikesPerSecond⟩ := by
  simp [analyseOrientationTuning, colapse, uniqueKeys, keyOf, keyFrom,
    meanArr, vecSum]
  norm_num

/-- Claim C5, amended: recordings sharing identical stimulus parameters
except the collapsed parameter (index 8, the slot in which repeated trials
of the same condition differ; orientation is the curve's varying parameter
index 9, per line 74) are merged by arithmetic mean — accumulated sum
divided by the number of merged entries, a singleton group yielding its
own value; for trials with mean rates 10 and 20 at orientation `o1` and a
single trial with rate 5 at orientation `o2 ≠ o1`, the resulting cyclic
tuning curve has values 15 and 5 at the representatives carrying `o1` and
`o2`, with period `π` and units spikes/second. -/
theorem orientation_tuning_mean_merge {V : Type} [DecidableEq V]
    (z t1 t2 t3 o1 o2 : V) (hne : o1 ≠ o2) :
    (∀ x : List ℚ, meanArr [x] = x) ∧
    analyseOrientationTuning
        [[10], [20], [5]]
        [[z, z, z, z, z, z, z, z, t1, o1], [z, z, z, z, z, z, z, z, t2, o1],
          [z, z, z, z, z, z, z, z, t3, o2]] =
      ⟨Real.pi, [[15], [5]],
        [[z, z, z, z, z, z, z, z, t1, o1],
          [z, z, z, z, z, z, z, z, t3, o2]], 9,
        PhysUnit.spikesPerSecond⟩ := by
  constructor
  · intro x
    simp [meanArr, vecSum]
  · simp [analyseOrientationTuning, colapse, uniqueKeys, keyOf, keyFrom,
      meanArr, vecSum, hne, Ne.symm hne]
    norm_num

/-- Claim C5, witness for `orientation_tuning_mean_merge`: parameter
values in `ℚ`, orientations 0 and 1/2 (standing for the floats 0 and π/2),
arbitrary distinct trial labels. -/
theorem orientation_tuning_mean_merge_witness :
    ((0 : ℚ) ≠ 1/2) ∧
    ((∀ x : List ℚ, meanArr [x] = x) ∧
      analyseOrientationTuning
          [[10], [20], [5]]
          [[(0 : ℚ), 0, 0, 0, 0, 0, 0, 0, 0, 0],
            [(0 : ℚ), 0, 0, 0, 0, 0, 0, 0, 1, 0],
            [(0 : ℚ), 0, 0, 0, 0, 0, 0, 0, 2, 1/2]] =
        ⟨Real.pi, [[15], [5]],
          [[(0 : ℚ), 0, 0, 0, 0, 0, 0, 0, 0, 0],
            [(0 : ℚ), 0, 0, 0, 0, 0, 0, 0, 2, 1/2]], 9,
          PhysUnit.spikesPerSecond⟩) :=
  ⟨by norm_num,
    orientation_tuning_mean_merge 0 0 1 2 0 (1/2) (by norm_num)⟩
